import Mathlib

/-!
Verification of the line-oriented authenticated TCP server in
`HW_1/ex1_server.py`.  The Python functions are shallowly embedded as Lean
functions: decoded protocol lines and accumulation buffers are lists of
characters, byte writes are modelled as the strings handed to `sendall`
(a successful send is assumed; a failed send closes the connection in the
source and is outside the claims considered here), and the connection-fatal
paths (`close_client`) are modelled as `none` results.  Character-level
predicates (`isalpha`, `lower`, whitespace, `int()` parsing) are modelled on
the ASCII range, which is the range the server's own documentation specifies
(`caesar_cipher`: "If any character is not [A-Za-z ] -> return None").
-/

namespace Ex1

/-- Python `str.isspace` membership for the ASCII whitespace characters
(space, tab, newline, carriage return, vertical tab, form feed). -/
def pyIsSpace (c : Char) : Bool :=
  c == ' ' || c == '\t' || c == '\n' || c == '\r' ||
  c == Char.ofNat 11 || c == Char.ofNat 12

/-- Python `str.isalpha` on the ASCII range: a latin letter. -/
def pyIsAlpha (c : Char) : Bool :=
  (97 ≤ c.toNat && c.toNat ≤ 122) || (65 ≤ c.toNat && c.toNat ≤ 90)

/-- Python `str.lower` on one ASCII character. -/
def pyLowerChar (c : Char) : Char :=
  if 65 ≤ c.toNat && c.toNat ≤ 90 then Char.ofNat (c.toNat + 32) else c

/-- Python `s.lstrip()`: drop leading whitespace. -/
def pyLstrip (l : List Char) : List Char := l.dropWhile pyIsSpace

/-- Python `s.rstrip()`: drop trailing whitespace. -/
def pyRstrip (l : List Char) : List Char := (l.reverse.dropWhile pyIsSpace).reverse

/-- Python `s.strip()`: drop whitespace at both ends. -/
def pyStrip (l : List Char) : List Char := pyRstrip (pyLstrip l)

/-- Python `line.rstrip("\r")` as used by the line codec: remove every carriage
return in the maximal trailing run. -/
def pyRstripCR (l : List Char) : List Char :=
  (l.reverse.dropWhile (fun c => c == '\r')).reverse

/-- Python `s.split(sep, 1)` restricted to the information the server uses: `none`
when `sep` does not occur (Python returns a one-element list there), and the
pair (text before the first `sep`, text after it) otherwise. -/
def splitOnce (sep : Char) (l : List Char) : Option (List Char × List Char) :=
  if sep ∈ l then
    some (l.takeWhile (fun c => !(c == sep)), (l.dropWhile (fun c => !(c == sep))).drop 1)
  else none

/-- Python `s.rsplit(sep, 1)`: split at the last occurrence of `sep`. -/
def rsplitOnce (sep : Char) (l : List Char) : Option (List Char × List Char) :=
  match splitOnce sep l.reverse with
  | none => none
  | some (a, b) => some (b.reverse, a.reverse)

/-- Accumulator for `pySplitWs`; `acc` holds the current token reversed. -/
def pySplitWsAux : List Char → List Char → List (List Char)
  | acc, [] => if acc = [] then [] else [acc.reverse]
  | acc, c :: cs =>
    if pyIsSpace c then
      if acc = [] then pySplitWsAux [] cs else acc.reverse :: pySplitWsAux [] cs
    else pySplitWsAux (c :: acc) cs

/-- Python `s.split()` with no arguments: split on runs of whitespace,
producing no empty tokens. -/
def pySplitWs (l : List Char) : List (List Char) := pySplitWsAux [] l

/-- Numeric value of an ASCII digit. -/
def digitVal (c : Char) : Nat := c.toNat - 48

/-- Digit-run accumulator for Python `int()`: digits, with single
underscores allowed between digits. -/
def pyDigitsCore : Nat → List Char → Option Nat
  | acc, [] => some acc
  | acc, '_' :: c :: cs =>
    if c.isDigit then pyDigitsCore (acc * 10 + digitVal c) cs else none
  | acc, c :: cs =>
    if c.isDigit then pyDigitsCore (acc * 10 + digitVal c) cs else none

/-- A nonempty digit run (no leading underscore). -/
def pyParseDigits : List Char → Option Nat
  | [] => none
  | c :: cs => if c.isDigit then pyDigitsCore (digitVal c) cs else none

/-- Python `int(s)` on ASCII decimal literals: surrounding whitespace is
ignored, one optional sign, then a nonempty digit run. -/
def pyParseInt (s : List Char) : Option Int :=
  match pyStrip s with
  | '+' :: ds => (pyParseDigits ds).map (fun n => (n : Int))
  | '-' :: ds => (pyParseDigits ds).map (fun n => -(n : Int))
  | ds => (pyParseDigits ds).map (fun n => (n : Int))

/-- The loop body of `is_parentheses_balanced`: a stack of pending openers
(the source pushes the character `'('`). -/
def parenAux : List Char → List Char → Bool
  | stack, [] => stack.length == 0
  | stack, ch :: rest =>
    if ch = '(' then parenAux ('(' :: stack) rest
    else if ch = ')' then
      match stack with
      | [] => false
      | _ :: stack' => parenAux stack' rest
    else parenAux stack rest

/-- Function `is_parentheses_balanced` from the source: stack-based scan that ignores
characters other than parentheses. -/
def is_parentheses_balanced (s : List Char) : Bool := parenAux [] s

/-- Function `lcm` from the source: `0` if either argument is `0`, otherwise
`abs(a*b) // math.gcd(a, b)` (floor division of non-negative integers). -/
def lcm (a b : Int) : Int :=
  if a = 0 ∨ b = 0 then 0
  else ((a * b).natAbs / Nat.gcd a.natAbs b.natAbs : Nat)

/-- Function `caesar_cipher` from the source: spaces pass through, letters are
lowercased and shifted by `shift` modulo 26 (Lean's `Int` `%` agrees with
Python's `%` for the positive modulus 26), anything else aborts with `None`. -/
def caesar_cipher : List Char → Int → Option (List Char)
  | [], _ => some []
  | ch :: rest, shift =>
    if ch = ' ' then (caesar_cipher rest shift).map (fun r => ' ' :: r)
    else if pyIsAlpha ch then
      let off := (((pyLowerChar ch).toNat : Int) - 97 + shift) % 26
      (caesar_cipher rest shift).map (fun r => Char.ofNat (97 + off.toNat) :: r)
    else none

/-- The per-connection dict `{logged_in, login_stage, username,
pending_username}` created on accept; `login_stage` keeps the source's
string values `"await_user"` / `"await_password"` / `None`. -/
structure ClientState where
  logged_in : Bool
  login_stage : Option String
  username : Option String
  pending_username : Option String
deriving DecidableEq

/-- The dict a fresh connection starts with. -/
def initClientState : ClientState :=
  ⟨false, some "await_user", none, none⟩

/-- Handler `handle_login_line`: `none` models `close_client`; `some (st, out)` is
the updated dict together with the bytes sent on this line. -/
def handle_login_line (users : List (String × String)) (line : List Char)
    (st : ClientState) : Option (ClientState × String) :=
  if st.login_stage = some "await_user" then
    if "User: ".data.isPrefixOf line then
      some ({ st with
                pending_username := some (String.mk (line.drop 6)),
                login_stage := some "await_password" }, "")
    else none
  else if st.login_stage = some "await_password" then
    if "Password: ".data.isPrefixOf line then
      let password := String.mk (line.drop 10)
      match st.pending_username with
      | some username =>
        if List.lookup username users = some password then
          some ({ logged_in := true, login_stage := none,
                  username := some username, pending_username := none },
                "Hi " ++ username ++ ", good to see you\n")
        else
          some ({ st with
                    login_stage := some "await_user",
                    pending_username := none },
                "Failed to login.\n")
      | none =>
        some ({ st with
                  login_stage := some "await_user",
                  pending_username := none },
              "Failed to login.\n")
    else none
  else
    some (st, "")

/-- Handler `handle_command_line`: the dict is never modified by this handler, so the
result is just `none` (connection closed) or the reply sent. -/
def handle_command_line (line : List Char) : Option String :=
  let stripped := pyStrip line
  if stripped = "quit".data then
    none
  else if "parentheses:".data.isPrefixOf line then
    match splitOnce ' ' line with
    | none => none
    | some (_, paren_str) =>
      some ("the parentheses are balanced: " ++
            (if is_parentheses_balanced paren_str then "yes" else "no") ++ "\n")
  else if "lcm:".data.isPrefixOf line then
    match pySplitWs line with
    | [_, xs, ys] =>
      match pyParseInt xs, pyParseInt ys with
      | some x, some y => some ("the lcm is: " ++ toString (lcm x y) ++ "\n")
      | _, _ => none
    | _ => none
  else if "caesar:".data.isPrefixOf line then
    let apfx := pyStrip (line.drop 7)
    match rsplitOnce ' ' apfx with
    | none => none
    | some (plaintext, shiftStr) =>
      if plaintext = [] then none
      else
        match pyParseInt shiftStr with
        | none => none
        | some shift =>
          match caesar_cipher plaintext shift with
          | none => some "error: invalid input\n"
          | some ct => some ("the ciphertext is: " ++ String.mk ct ++ "\n")
  else none

/-- One decoded line through the session state machine: the event loop
dispatches on `logged_in` (login handling before, command handling after). -/
def stepLine (users : List (String × String)) (st : ClientState)
    (line : List Char) : Option (ClientState × String) :=
  if st.logged_in then
    match handle_command_line line with
    | none => none
    | some out => some (st, out)
  else
    handle_login_line users line st

/-- Run a sequence of decoded lines from a session state; `none` once the
connection has been closed. -/
def runLines (users : List (String × String)) :
    ClientState → List (List Char) → Option ClientState
  | st, [] => some st
  | st, l :: ls =>
    match stepLine users st l with
    | none => none
    | some (st', _) => runLines users st' ls

/-- Like `runLines` but also concatenating everything written to the client. -/
def runLinesOut (users : List (String × String)) :
    ClientState → List (List Char) → Option ClientState × String
  | st, [] => (some st, "")
  | st, l :: ls =>
    match stepLine users st l with
    | none => (none, "")
    | some (st', o) =>
      let r := runLinesOut users st' ls
      (r.1, o ++ r.2)

/-- The multiplexer's per-process state: the monitored client sockets
(`inputs` minus the listening socket, so the listening socket itself is not
an element), and the two per-client dicts `buffers` and `client_state`,
keyed by socket handle (modelled as `Nat`). -/
structure ServerState where
  inputs : List Nat
  buffers : Nat → Option (List Char)
  client_state : Nat → Option ClientState

/-- State before any connection is accepted. -/
def initServerState : ServerState :=
  ⟨[], fun _ => none, fun _ => none⟩

/-- Function `close_client`: deregister the socket and drop both per-client dicts. -/
def close_client (c : Nat) (st : ServerState) : ServerState :=
  { inputs := st.inputs.erase c,
    buffers := fun x => if x = c then none else st.buffers x,
    client_state := fun x => if x = c then none else st.client_state x }

/-- Readiness events delivered by `select`: a new connection on the listening
socket, decoded bytes from a client, or an empty/failed read (which also
stands for a `UnicodeDecodeError`, since both paths just close the client). -/
inductive Event where
  | accept (c : Nat)
  | data (c : Nat) (chunk : List Char)
  | disconnect (c : Nat)

/-- The socket an event concerns. -/
def Event.client : Event → Nat
  | accept c => c
  | data c _ => c
  | disconnect c => c

/-- The `while "\n" in buffers[s]` loop: repeatedly split off the first line,
strip its trailing carriage returns, and feed it to the state machine,
stopping when the connection closes.  Each iteration consumes at least the
newline, so `buf.length` steps of fuel always suffice (see
`processLinesFuel_eq_of_le` below). -/
def processLinesFuel (users : List (String × String)) :
    Nat → ClientState → List Char → String →
    Option (ClientState × List Char) × String
  | 0, st, buf, out => (some (st, buf), out)
  | fuel + 1, st, buf, out =>
    match splitOnce '\n' buf with
    | none => (some (st, buf), out)
    | some (line, rest) =>
      match stepLine users st (pyRstripCR line) with
      | none => (none, out)
      | some (st', o) => processLinesFuel users fuel st' rest (out ++ o)

/-- Process every complete line of `buf`; returns the surviving state with
the remaining partial line, or `none` if the connection was closed, plus the
concatenation of all replies written. -/
def processLines (users : List (String × String)) (st : ClientState)
    (buf : List Char) : Option (ClientState × List Char) × String :=
  processLinesFuel users buf.length st buf ""

/-- One iteration of the event loop for one readiness event, returning the
new server state together with the (socket, bytes) writes performed. -/
def serverStep (users : List (String × String)) (st : ServerState) :
    Event → ServerState × List (Nat × String)
  | .accept c =>
    ({ inputs := st.inputs ++ [c],
       buffers := fun x => if x = c then some [] else st.buffers x,
       client_state := fun x => if x = c then some initClientState else st.client_state x },
     [(c, "Welcome! Please log in\n")])
  | .data c chunk =>
    match st.buffers c, st.client_state c with
    | some buf, some cst =>
      match processLines users cst (buf ++ chunk) with
      | (some (cst', rest), out) =>
        ({ inputs := st.inputs,
           buffers := fun x => if x = c then some rest else st.buffers x,
           client_state := fun x => if x = c then some cst' else st.client_state x },
         [(c, out)])
      | (none, out) => (close_client c st, [(c, out)])
    | _, _ => (st, [])
  | .disconnect c => (close_client c st, [])

/-- Run the event loop over a list of readiness events, accumulating writes. -/
def runEvents (users : List (String × String)) :
    ServerState → List Event → ServerState × List (Nat × String)
  | st, [] => (st, [])
  | st, e :: es =>
    let p := serverStep users st e
    let r := runEvents users p.1 es
    (r.1, p.2 ++ r.2)

/-- Well-formed event traces: an accepted socket handle is fresh (a new
`socket.accept()` always returns an object distinct from every currently
registered one). -/
def wfEvents (users : List (String × String)) : ServerState → List Event → Bool
  | _, [] => true
  | st, e :: es =>
    (match e with
     | .accept c => !(st.inputs.contains c)
     | _ => true) && wfEvents users (serverStep users st e).1 es

/-- The responses a given client observes, in order. -/
def outputsTo (c : Nat) (outs : List (Nat × String)) : List String :=
  (outs.filter (fun p => p.1 == c)).map Prod.snd

/-- The subsequence of events belonging to one client. -/
def eventsFor (c : Nat) (es : List Event) : List Event :=
  es.filter (fun e => e.client == c)

/-- Transcribed from the specification's words for the balance check (claim
C6): scan left to right keeping a counter, `+1` on `'('`, `-1` on `')'`,
other characters ignored; fail as soon as the counter becomes negative, and
accept exactly when it ends at zero. -/
def counterScan : Int → List Char → Bool
  | c, [] => c == 0
  | c, ch :: rest =>
    let c' := if ch = '(' then c + 1 else if ch = ')' then c - 1 else c
    if c' < 0 then false else counterScan c' rest

end Ex1

namespace Ex1

theorem dropWhile_len_le (p : Char → Bool) : ∀ l : List Char, (l.dropWhile p).length ≤ l.length := by
  intro l
  induction l with
  | nil => simp
  | cons a l ih =>
    rw [List.dropWhile_cons]
    split
    · exact Nat.le_succ_of_le ih
    · simp

theorem dropWhile_ne_nil_of_mem {sep : Char} : ∀ {l : List Char}, sep ∈ l →
    l.dropWhile (fun c => !(c == sep)) ≠ [] := by
  intro l
  induction l with
  | nil => intro h; cases h
  | cons a l ih =>
    intro h
    rw [List.dropWhile_cons]
    split
    · rename_i hq
      rcases List.mem_cons.mp h with h1 | h2
      · simp [h1] at hq
      · exact ih h2
    · simp

theorem splitOnce_rest_lt {sep : Char} {l a b : List Char}
    (h : splitOnce sep l = some (a, b)) : b.length < l.length := by
  unfold splitOnce at h
  split at h
  · rename_i hmem
    injection h with h'
    rw [Prod.mk.injEq] at h'
    have hb : b = (l.dropWhile (fun c => !(c == sep))).drop 1 := h'.2.symm
    have h1 : (l.dropWhile (fun c => !(c == sep))).length ≤ l.length :=
      dropWhile_len_le _ l
    have h2 : l.dropWhile (fun c => !(c == sep)) ≠ [] := dropWhile_ne_nil_of_mem hmem
    have h3 : 1 ≤ (l.dropWhile (fun c => !(c == sep))).length := by
      cases hdw : l.dropWhile (fun c => !(c == sep)) with
      | nil => exact absurd hdw h2
      | cons x xs => simp
    rw [hb, List.length_drop]
    omega
  · cases h

theorem processLinesFuel_eq_of_le (users : List (String × String)) :
    ∀ fuel : Nat, ∀ st buf out, buf.length ≤ fuel →
    processLinesFuel users fuel st buf out = processLinesFuel users buf.length st buf out := by
  intro fuel
  induction fuel using Nat.strong_induction_on with
  | _ fuel ih =>
    intro st buf out h
    match fuel, h with
    | 0, h =>
      have : buf.length = 0 := Nat.le_zero.mp h
      rw [this]
    | Nat.succ f, h =>
      cases hb : buf.length with
      | zero =>
        have : buf = [] := List.length_eq_zero.mp hb
        subst this
        simp [processLinesFuel, splitOnce]
      | succ k =>
        rw [hb] at h
        simp only [processLinesFuel]
        cases hsp : splitOnce '\n' buf with
        | none => rfl
        | some p =>
          cases p with
          | mk line rest =>
            simp only []
            cases hst : stepLine users st (pyRstripCR line) with
            | none => rfl
            | some q =>
              cases q with
              | mk st' o =>
                simp only []
                have hlt : rest.length < buf.length := splitOnce_rest_lt hsp
                rw [hb] at hlt
                have e1 : processLinesFuel users f st' rest (out ++ o) =
                    processLinesFuel users rest.length st' rest (out ++ o) :=
                  ih f (Nat.lt_succ_self f) st' rest (out ++ o) (by omega)
                have e2 : processLinesFuel users k st' rest (out ++ o) =
                    processLinesFuel users rest.length st' rest (out ++ o) :=
                  ih k (by omega) st' rest (out ++ o) (by omega)
                rw [e1, e2]

end Ex1

namespace Ex1

theorem char_toNat_ofNat {n : Nat} (h : n < 55296) : (Char.ofNat n).toNat = n := by
  unfold Char.ofNat
  rw [dif_pos (Or.inl h)]
  rfl

theorem isPrefixOf_self_append (p t : List Char) : p.isPrefixOf (p ++ t) = true := by
  induction p with
  | nil => simp [List.isPrefixOf]
  | cons a as ih => simp [List.isPrefixOf, ih]

theorem dropWhile_append_one (p : Char → Bool) (a : Char) (h : p a = false) :
    ∀ xs : List Char, (xs ++ [a]).dropWhile p = xs.dropWhile p ++ [a] := by
  intro xs
  induction xs with
  | nil => simp [List.dropWhile, h]
  | cons x xs ih =>
    by_cases hx : p x <;> simp [List.dropWhile_cons, hx, ih]

theorem pyRstrip_cons_last (a : Char) (l : List Char) (h : pyIsSpace a = false) :
    pyStrip (a :: l) = a :: pyRstrip l := by
  unfold pyStrip pyLstrip pyRstrip
  rw [List.dropWhile_cons_of_neg (by simp [h]), List.reverse_cons,
      dropWhile_append_one pyIsSpace a h, List.reverse_append]
  rfl

end Ex1

namespace Ex1

/-- Claim C5 counterexample: the buffer `"ab\r\r\nxy"` yields the complete
line `"ab\r\r"`, and the codec removes BOTH trailing carriage returns (the
result is `"ab"`), not just the single terminal occurrence (which would give
`"ab\r"`). -/
theorem line_codec_cr_counterexample :
    splitOnce '\n' ("ab\r\r\nxy".data) = some ("ab\r\r".data, "xy".data) ∧
    pyRstripCR ("ab\r\r".data) = "ab".data ∧
    pyRstripCR ("ab\r\r".data) ≠ "ab\r".data := by
  refine ⟨by decide, by decide, by decide⟩

/-- Claim C5 (amended): for every complete line extracted by the line codec
(the prefix of the buffer up to but not including its first newline), the
codec removes exactly the maximal trailing run of carriage returns: the
stripped line followed by some run of `'\r'`s reassembles the original line,
and the stripped line does not end in a carriage return (so carriage returns
anywhere before the trailing run are preserved verbatim). -/
theorem codec_strips_all_trailing_cr (buf line rest : List Char)
    (h : splitOnce '\n' buf = some (line, rest)) :
    (∃ k, line = pyRstripCR line ++ List.replicate k '\r') ∧
    (pyRstripCR line).getLast? ≠ some '\r' := by
  constructor
  · have hdecomp := List.takeWhile_append_dropWhile (fun c => c == '\r') line.reverse
    have hrev := congrArg List.reverse hdecomp
    rw [List.reverse_append, List.reverse_reverse] at hrev
    refine ⟨(line.reverse.takeWhile (fun c => c == '\r')).length, ?_⟩
    have hall : ∀ b ∈ line.reverse.takeWhile (fun c => c == '\r'), b = '\r' := fun b hb => by
      have := List.mem_takeWhile_imp hb
      simpa using this
    have hrepl := List.eq_replicate_of_mem hall
    rw [pyRstripCR]
    conv_lhs => rw [← hrev]
    congr 1
    conv_lhs => rw [hrepl]
    rw [List.reverse_replicate]
  · intro hlast
    rw [pyRstripCR, List.getLast?_reverse] at hlast
    have hnot := List.head?_dropWhile_not (fun c => c == '\r') line.reverse
    rw [hlast] at hnot
    simp at hnot

/-- Witness for C5: the amended statement evaluated on the concrete buffer
`"ab\r\r\nxy"`. -/
theorem codec_strips_all_trailing_cr_witness :
    (∃ k, "ab\r\r".data = pyRstripCR ("ab\r\r".data) ++ List.replicate k '\r') ∧
    (pyRstripCR ("ab\r\r".data)).getLast? ≠ some '\r' :=
  codec_strips_all_trailing_cr ("ab\r\r\nxy".data) ("ab\r\r".data) ("xy".data) (by decide)

theorem parenAux_eq_counterScan :
    ∀ (rest stack : List Char), parenAux stack rest = counterScan (stack.length : Int) rest := by
  intro rest
  induction rest with
  | nil =>
    intro stack
    cases hstack : stack.length with
    | zero => simp [parenAux, counterScan, hstack]
    | succ n =>
      simp [parenAux, counterScan, hstack]
      omega
  | cons ch rest ih =>
    intro stack
    have hstep : counterScan (stack.length : Int) (ch :: rest) =
        (if (if ch = '(' then (stack.length : Int) + 1
             else if ch = ')' then (stack.length : Int) - 1
             else (stack.length : Int)) < 0 then false
         else counterScan
            (if ch = '(' then (stack.length : Int) + 1
             else if ch = ')' then (stack.length : Int) - 1
             else (stack.length : Int)) rest) := rfl
    by_cases h1 : ch = '('
    · subst h1
      have hno : ¬((stack.length : Int) + 1 < 0) := by omega
      have hlhs : parenAux stack ('(' :: rest) = parenAux ('(' :: stack) rest := by
        simp [parenAux]
      have hcast : (('(' :: stack).length : Int) = (stack.length : Int) + 1 := by
        push_cast [List.length_cons]
        ring
      rw [hstep, if_pos rfl, if_neg hno, hlhs, ih ('(' :: stack), hcast]
    · by_cases h2 : ch = ')'
      · subst h2
        rw [hstep, if_neg (show ')' ≠ '(' by decide), if_pos rfl]
        cases stack with
        | nil =>
          rw [if_pos (show ((([] : List Char).length : Int) - 1) < 0 by norm_num)]
          simp [parenAux]
        | cons x s =>
          have harith : ((x :: s).length : Int) - 1 = (s.length : Int) := by
            simp
          have hno : ¬((s.length : Int) < 0) := by omega
          have hlhs : parenAux (x :: s) (')' :: rest) = parenAux s rest := by
            simp [parenAux]
          rw [harith, if_neg hno, hlhs, ih s]
      · have hno : ¬((stack.length : Int) < 0) := by omega
        have hlhs : parenAux stack (ch :: rest) = parenAux stack rest := by
          simp [parenAux, h1, h2]
        rw [hstep, if_neg h1, if_neg h2, if_neg hno, hlhs, ih stack]

/-- Claim C6: the balance check returns true exactly when the left-to-right
counter scan described by the specification (increment on `'('`, decrement on
`')'`, ignore everything else) never goes negative and ends at zero. -/
theorem balance_check_matches_counter_scan (s : List Char) :
    is_parentheses_balanced s = true ↔ counterScan 0 s = true := by
  unfold is_parentheses_balanced
  rw [parenAux_eq_counterScan s []]
  simp

end Ex1

namespace Ex1

/-- Claim C3 counterexample: the line `"parentheses: "` — prefix, one space,
EMPTY remainder — is not closed as the claim requires; the server answers
`yes` for the empty remainder. -/
theorem parentheses_empty_remainder_counterexample :
    handle_command_line ("parentheses: ".data) = some "the parentheses are balanced: yes\n" ∧
    handle_command_line ("parentheses: ".data) ≠ none := by
  refine ⟨by decide, by decide⟩

/-- Claim C3 (amended): for an Authenticated connection receiving a line
starting with `"parentheses:"`, the server only requires some space character
in the line: if one exists it replies with the balance verdict for everything
after the FIRST space (which may be empty, and need not sit directly after
the prefix); only a line with no space at all makes it close the connection,
without an error reply. -/
theorem parentheses_dispatch (t : List Char) :
    handle_command_line ("parentheses:".data ++ t) =
      match splitOnce ' ' ("parentheses:".data ++ t) with
      | none => none
      | some (_, paren_str) =>
        some ("the parentheses are balanced: " ++
              (if is_parentheses_balanced paren_str then "yes" else "no") ++ "\n") := by
  have hquit : ¬(pyStrip ("parentheses:".data ++ t) = "quit".data) := by
    have hc : "parentheses:".data ++ t = 'p' :: ("arentheses:".data ++ t) := rfl
    rw [hc, pyRstrip_cons_last _ _ (by decide),
        (by decide : "quit".data = ['q', 'u', 'i', 't'])]
    simp
  simp only [handle_command_line]
  rw [if_neg hquit, if_pos (by rw [isPrefixOf_self_append])]

/-- Claim C4 counterexample: `"lcm:4 6"` has exactly two integer tokens after
the prefix, yet the server closes the connection instead of replying 12; and
`"lcm:4 6 8"` has three tokens after the prefix, yet the server replies (with
the lcm of 6 and 8, ignoring the 4 attached to the prefix). -/
theorem lcm_token_count_counterexample :
    handle_command_line ("lcm:4 6".data) = none ∧
    handle_command_line ("lcm:4 6 8".data) = some "the lcm is: 24\n" := by
  refine ⟨by decide, by decide⟩

/-- Claim C4 (amended): for an Authenticated connection receiving a line
starting with `"lcm:"`, the server splits the WHOLE line on whitespace and
requires exactly three tokens — the first is the token that contains the
`"lcm:"` prefix and is otherwise ignored — with the second and third
parseable as integers; then it replies `the lcm is: <value>`, and for any
other shape it closes the connection. -/
theorem lcm_dispatch (t : List Char) :
    handle_command_line ("lcm:".data ++ t) =
      match pySplitWs ("lcm:".data ++ t) with
      | [_, xs, ys] =>
        (match pyParseInt xs, pyParseInt ys with
         | some x, some y => some ("the lcm is: " ++ toString (lcm x y) ++ "\n")
         | _, _ => none)
      | _ => none := by
  have hquit : ¬(pyStrip ("lcm:".data ++ t) = "quit".data) := by
    have hc : "lcm:".data ++ t = 'l' :: ("cm:".data ++ t) := rfl
    rw [hc, pyRstrip_cons_last _ _ (by decide),
        (by decide : "quit".data = ['q', 'u', 'i', 't'])]
    simp
  have hpar : ¬("parentheses:".data.isPrefixOf ("lcm:".data ++ t) = true) := by
    simp [List.isPrefixOf, (by decide : "parentheses:".data = 'p' :: "arentheses:".data),
          (by decide : "lcm:".data = 'l' :: "cm:".data)]
  simp only [handle_command_line]
  rw [if_neg hquit, if_neg hpar, if_pos (by rw [isPrefixOf_self_append])]

end Ex1

namespace Ex1

theorem append3_ne_error (p q r : String) (hp : p.data.head? = some 't') :
    p ++ q ++ r ≠ "error: invalid input\n" := by
  intro h
  have hd := congrArg (fun s : String => s.data.head?) h
  simp only [String.data_append] at hd
  cases hx : p.data with
  | nil => rw [hx] at hp; cases hp
  | cons a l =>
    rw [hx] at hp hd
    have ha : a = 't' := by
      simpa using hp
    simp [List.cons_append] at hd
    rw [ha] at hd
    exact absurd hd (by decide)

/-- Claim C2: an Authenticated connection sending a well-formed
`caesar: <plaintext> <shift>` line whose plaintext contains an invalid
character gets exactly `error: invalid input` back with its session state
untouched (the connection is not closed, so further commands are processed);
and this is the only branch of the command handler that ever answers with the
error message instead of closing: any command line answered with
`error: invalid input` is a `caesar:` line whose split, shift parse and
plaintext validation reach the cipher's invalid-input signal. -/
theorem caesar_invalid_input_error (users : List (String × String)) (st : ClientState)
    (t plaintext shiftStr : List Char) (shift : Int)
    (hlog : st.logged_in = true)
    (hsplit : rsplitOnce ' ' (pyStrip t) = some (plaintext, shiftStr))
    (hne : plaintext ≠ [])
    (hshift : pyParseInt shiftStr = some shift)
    (hinv : caesar_cipher plaintext shift = none) :
    stepLine users st ("caesar:".data ++ t) = some (st, "error: invalid input\n") ∧
    (∀ (line : List Char) (out : String), handle_command_line line = some out →
      out = "error: invalid input\n" →
      "caesar:".data.isPrefixOf line = true ∧
      ∃ p' s' k, rsplitOnce ' ' (pyStrip (line.drop 7)) = some (p', s') ∧ p' ≠ [] ∧
        pyParseInt s' = some k ∧ caesar_cipher p' k = none) := by
  constructor
  · have hquit : ¬(pyStrip ("caesar:".data ++ t) = "quit".data) := by
      have hc : "caesar:".data ++ t = 'c' :: ("aesar:".data ++ t) := rfl
      rw [hc, pyRstrip_cons_last _ _ (by decide),
          (by decide : "quit".data = ['q', 'u', 'i', 't'])]
      simp
    have hpar : ¬("parentheses:".data.isPrefixOf ("caesar:".data ++ t) = true) := by
      simp [List.isPrefixOf, (by decide : "parentheses:".data = 'p' :: "arentheses:".data),
            (by decide : "caesar:".data = 'c' :: "aesar:".data)]
    have hlcm : ¬("lcm:".data.isPrefixOf ("caesar:".data ++ t) = true) := by
      simp [List.isPrefixOf, (by decide : "lcm:".data = 'l' :: "cm:".data),
            (by decide : "caesar:".data = 'c' :: "aesar:".data)]
    have hdrop : ("caesar:".data ++ t).drop 7 = t :=
      List.drop_left' (by decide)
    simp only [stepLine, hlog, if_true]
    simp only [handle_command_line]
    rw [if_neg hquit, if_neg hpar, if_neg hlcm, if_pos (by rw [isPrefixOf_self_append]),
        hdrop, hsplit]
    simp only [if_neg hne, hshift, hinv]
  · intro line out h1 h2
    simp only [handle_command_line] at h1
    split at h1
    · exact absurd h1 (by simp)
    · split at h1
      · split at h1
        · exact absurd h1 (by simp)
        · injection h1 with h1'
          rw [h2] at h1'
          exact absurd h1' (append3_ne_error _ _ _ (by decide))
      · split at h1
        · split at h1
          · split at h1
            · injection h1 with h1'
              rw [h2] at h1'
              exact absurd h1' (append3_ne_error _ _ _ (by decide))
            · exact absurd h1 (by simp)
          · exact absurd h1 (by simp)
        · split at h1
          · rename_i hcae
            split at h1
            · exact absurd h1 (by simp)
            · rename_i p' s' hsp
              split at h1
              · exact absurd h1 (by simp)
              · rename_i hne'
                split at h1
                · exact absurd h1 (by simp)
                · rename_i k hk
                  split at h1
                  · rename_i hcinv
                    exact ⟨hcae, p', s', k, hsp, hne', hk, hcinv⟩
                  · injection h1 with h1'
                    rw [h2] at h1'
                    exact absurd h1' (append3_ne_error _ _ _ (by decide))
          · exact absurd h1 (by simp)

/-- Witness for C2: the spec's own example `caesar: hello! 3` (the `!` is
invalid) answered with the error message, connection state untouched. -/
theorem caesar_invalid_input_error_witness :
    stepLine [] ⟨true, none, some "alice", none⟩ ("caesar:".data ++ " hello! 3".data) =
      some (⟨true, none, some "alice", none⟩, "error: invalid input\n") :=
  (caesar_invalid_input_error [] ⟨true, none, some "alice", none⟩ (" hello! 3".data)
    ("hello!".data) ("3".data) 3 rfl (by decide) (by decide) (by decide) (by decide)).1

end Ex1

namespace Ex1

/-- Claim C1: in stage AwaitingPassword a line with the literal prefix
`Password: ` makes the handler look up the stored `pending_username` in the
credential map against the remainder of the line: on a match the state
becomes Authenticated (identity set, pending username cleared) and exactly
`Hi <username>, good to see you` is written; otherwise the pending username
is cleared, the stage returns to AwaitingUsername, and exactly
`Failed to login.` is written.  Consequently one wrong password followed by a
correct retry yields exactly one failure line followed by one greeting. -/
theorem login_password_check (users : List (String × String)) (st : ClientState)
    (r : List Char) (u : String)
    (hstage : st.login_stage = some "await_password")
    (hpend : st.pending_username = some u)
    (hlogged : st.logged_in = false) :
    (List.lookup u users = some (String.mk r) →
      handle_login_line users ("Password: ".data ++ r) st =
        some (⟨true, none, some u, none⟩, "Hi " ++ u ++ ", good to see you\n")) ∧
    (¬(List.lookup u users = some (String.mk r)) →
      handle_login_line users ("Password: ".data ++ r) st =
        some ({ st with login_stage := some "await_user", pending_username := none },
              "Failed to login.\n")) ∧
    (∀ (pw wrong : String), List.lookup u users = some pw → wrong ≠ pw →
      runLinesOut users st
        ["Password: ".data ++ wrong.data, "User: ".data ++ u.data,
         "Password: ".data ++ pw.data] =
        (some ⟨true, none, some u, none⟩,
         "Failed to login.\n" ++ ("Hi " ++ u ++ ", good to see you\n"))) := by
  have hgen : ∀ (s' : ClientState) (r' : List Char),
      s'.login_stage = some "await_password" → s'.pending_username = some u →
      handle_login_line users ("Password: ".data ++ r') s' =
        (if List.lookup u users = some (String.mk r') then
          some (⟨true, none, some u, none⟩, "Hi " ++ u ++ ", good to see you\n")
        else
          some ({ s' with login_stage := some "await_user", pending_username := none },
                "Failed to login.\n")) := by
    intro s' r' hs1 hs2
    have hnu : ¬(s'.login_stage = some "await_user") := by
      rw [hs1]
      decide
    simp only [handle_login_line]
    rw [if_neg hnu, if_pos hs1,
        if_pos (show ("Password: ".data).isPrefixOf ("Password: ".data ++ r') = true from
          isPrefixOf_self_append _ _),
        List.drop_left' (by decide : ("Password: ".data).length = 10), hs2]
  refine ⟨fun hlk => by rw [hgen st r hstage hpend, if_pos hlk],
          fun hlk => by rw [hgen st r hstage hpend, if_neg hlk], ?_⟩
  intro pw wrong hlook hw
  have hne1 : ¬(List.lookup u users = some (String.mk wrong.data)) := by
    intro hq
    have : pw = String.mk wrong.data := by
      injection (hlook.symm.trans hq)
    exact hw (this ▸ rfl)
  have e1 : stepLine users st ("Password: ".data ++ wrong.data) =
      some ({ st with login_stage := some "await_user", pending_username := none },
            "Failed to login.\n") := by
    simp only [stepLine, hlogged, Bool.false_eq_true, if_false]
    rw [hgen st wrong.data hstage hpend, if_neg hne1, hlogged]
  have e2 : stepLine users
      { st with login_stage := some "await_user", pending_username := none }
      ("User: ".data ++ u.data) =
      some ({ st with login_stage := some "await_password", pending_username := some u },
            "") := by
    simp only [stepLine, hlogged, Bool.false_eq_true, if_false]
    simp [handle_login_line, isPrefixOf_self_append,
          List.drop_left' (show ("User: ".data).length = 6 by decide)]
  have e3 : stepLine users
      { st with login_stage := some "await_password", pending_username := some u }
      ("Password: ".data ++ pw.data) =
      some (⟨true, none, some u, none⟩, "Hi " ++ u ++ ", good to see you\n") := by
    simp only [stepLine, hlogged, Bool.false_eq_true, if_false]
    rw [hgen _ pw.data rfl rfl, if_pos (show List.lookup u users = some (String.mk pw.data)
      from hlook)]
  simp only [runLinesOut, e1, e2, e3]
  rw [String.append_empty, String.empty_append]

end Ex1

namespace Ex1

/-- Witness for C1: the correct password for a stored pending username
authenticates and greets. -/
theorem login_password_check_witness :
    handle_login_line [("alice", "secret")] ("Password: ".data ++ "secret".data)
      ⟨false, some "await_password", none, some "alice"⟩ =
      some (⟨true, none, some "alice", none⟩, "Hi " ++ "alice" ++ ", good to see you\n") :=
  (login_password_check [("alice", "secret")]
    ⟨false, some "await_password", none, some "alice"⟩
    ("secret".data) "alice" rfl rfl rfl).1 (by decide)

end Ex1

namespace Ex1

theorem stepLine_preserves_inv (users : List (String × String))
    (st st' : ClientState) (line : List Char) (o : String)
    (h1 : st.pending_username ≠ none → st.login_stage = some "await_password")
    (h2 : st.username ≠ none → st.logged_in = true)
    (hs : stepLine users st line = some (st', o)) :
    (st'.pending_username ≠ none → st'.login_stage = some "await_password") ∧
    (st'.username ≠ none → st'.logged_in = true) := by
  by_cases hlog : st.logged_in = true
  · rw [stepLine, if_pos hlog] at hs
    cases hc : handle_command_line line with
    | none => rw [hc] at hs; cases hs
    | some out =>
      rw [hc] at hs
      injection hs with hs'
      injection hs' with ha hb
      subst ha
      exact ⟨h1, h2⟩
  · have hlogf : st.logged_in = false := by
      cases hb : st.logged_in with
      | false => rfl
      | true => exact absurd hb hlog
    rw [stepLine, if_neg hlog] at hs
    rw [handle_login_line] at hs
    split at hs
    · split at hs
      · injection hs with hs'
        injection hs' with ha hb
        subst ha
        refine ⟨fun _ => rfl, fun hu => ?_⟩
        exact absurd (h2 hu) (by rw [hlogf]; decide)
      · cases hs
    · split at hs
      · split at hs
        · split at hs
          · dsimp only [] at hs
            split at hs
            · injection hs with hs'
              injection hs' with ha hb
              subst ha
              exact ⟨fun hp => absurd rfl hp, fun _ => rfl⟩
            · injection hs with hs'
              injection hs' with ha hb
              subst ha
              refine ⟨fun hp => absurd rfl hp, fun hu => ?_⟩
              exact absurd (h2 hu) (by rw [hlogf]; decide)
          · injection hs with hs'
            injection hs' with ha hb
            subst ha
            refine ⟨fun hp => absurd rfl hp, fun hu => ?_⟩
            exact absurd (h2 hu) (by rw [hlogf]; decide)
        · cases hs
      · injection hs with hs'
        injection hs' with ha hb
        subst ha
        exact ⟨h1, h2⟩

theorem runLines_inv (users : List (String × String)) :
    ∀ (lines : List (List Char)) (st0 st : ClientState),
    (st0.pending_username ≠ none → st0.login_stage = some "await_password") →
    (st0.username ≠ none → st0.logged_in = true) →
    runLines users st0 lines = some st →
    (st.pending_username ≠ none → st.login_stage = some "await_password") ∧
    (st.username ≠ none → st.logged_in = true) := by
  intro lines
  induction lines with
  | nil =>
    intro st0 st h1 h2 hrun
    rw [runLines] at hrun
    injection hrun with hr
    subst hr
    exact ⟨h1, h2⟩
  | cons l ls ih =>
    intro st0 st h1 h2 hrun
    rw [runLines] at hrun
    cases hsl : stepLine users st0 l with
    | none => rw [hsl] at hrun; cases hrun
    | some p =>
      cases p with
      | mk st1 o =>
        rw [hsl] at hrun
        have hinv := stepLine_preserves_inv users st0 st1 l o h1 h2 hsl
        exact ih st1 st hinv.1 hinv.2 hrun

/-- Claim C8: in every per-connection session state reachable from the
initial AwaitingUsername state by processing any sequence of lines,
`pending_username` is set only in stage AwaitingPassword and the identity
`username` is set only once Authenticated (`logged_in`); every login
transition and every command-dispatch step preserves this. -/
theorem session_state_invariant (users : List (String × String))
    (lines : List (List Char)) (st : ClientState)
    (h : runLines users initClientState lines = some st) :
    (st.pending_username ≠ none → st.login_stage = some "await_password") ∧
    (st.username ≠ none → st.logged_in = true) :=
  runLines_inv users lines initClientState st
    (fun hp => absurd rfl hp) (fun hu => absurd rfl hu) h

/-- Witness for C8: the invariant at the initial state itself (empty line
sequence). -/
theorem session_state_invariant_witness :
    (initClientState.pending_username ≠ none →
      initClientState.login_stage = some "await_password") ∧
    (initClientState.username ≠ none → initClientState.logged_in = true) :=
  session_state_invariant [] [] initClientState rfl

end Ex1

namespace Ex1

theorem close_client_inv (c0 : Nat) (st : ServerState)
    (hnd : st.inputs.Nodup)
    (hof : ∀ c, (c ∈ st.inputs ↔ st.buffers c ≠ none) ∧
                (c ∈ st.inputs ↔ st.client_state c ≠ none)) :
    (close_client c0 st).inputs.Nodup ∧
    ∀ c, (c ∈ (close_client c0 st).inputs ↔ (close_client c0 st).buffers c ≠ none) ∧
         (c ∈ (close_client c0 st).inputs ↔ (close_client c0 st).client_state c ≠ none) := by
  refine ⟨hnd.erase c0, fun c => ?_⟩
  have hmem : c ∈ st.inputs.erase c0 ↔ c ≠ c0 ∧ c ∈ st.inputs := hnd.mem_erase_iff
  by_cases hc : c = c0
  · subst hc
    simp [close_client, hmem]
  · simp only [close_client, hmem, if_neg hc]
    constructor
    · constructor
      · intro hin
        exact ((hof c).1.mp hin.2)
      · intro hb
        exact ⟨hc, (hof c).1.mpr hb⟩
    · constructor
      · intro hin
        exact ((hof c).2.mp hin.2)
      · intro hb
        exact ⟨hc, (hof c).2.mpr hb⟩

theorem serverStep_inv (users : List (String × String)) (st : ServerState) (e : Event)
    (hnd : st.inputs.Nodup)
    (hof : ∀ c, (c ∈ st.inputs ↔ st.buffers c ≠ none) ∧
                (c ∈ st.inputs ↔ st.client_state c ≠ none))
    (hwf : match e with | .accept c => c ∉ st.inputs | _ => True) :
    (serverStep users st e).1.inputs.Nodup ∧
    ∀ c, (c ∈ (serverStep users st e).1.inputs ↔ (serverStep users st e).1.buffers c ≠ none) ∧
         (c ∈ (serverStep users st e).1.inputs ↔ (serverStep users st e).1.client_state c ≠ none) := by
  cases e with
  | accept c0 =>
    refine ⟨?_, fun c => ?_⟩
    · simp only [serverStep]
      rw [List.nodup_append]
      exact ⟨hnd, List.nodup_singleton c0, by simpa using fun h => hwf h⟩
    · by_cases hc : c = c0
      · subst hc
        simp [serverStep]
      · simp only [serverStep, List.mem_append, List.mem_singleton, if_neg hc]
        constructor
        · constructor
          · intro hin
            rcases hin with hin | hin
            · exact (hof c).1.mp hin
            · exact absurd hin hc
          · intro hb
            exact Or.inl ((hof c).1.mpr hb)
        · constructor
          · intro hin
            rcases hin with hin | hin
            · exact (hof c).2.mp hin
            · exact absurd hin hc
          · intro hb
            exact Or.inl ((hof c).2.mpr hb)
  | data c0 chunk =>
    simp only [serverStep]
    split
    · rename_i buf cst hbv hcv
      split
      · rename_i cst' rest out hp
        have hc0in : c0 ∈ st.inputs := (hof c0).1.mpr (by rw [hbv]; simp)
        refine ⟨hnd, fun c => ?_⟩
        by_cases hc : c = c0
        · subst hc
          simp [hc0in]
        · simp only [if_neg hc]
          exact hof c
      · rename_i out hp
        exact close_client_inv c0 st hnd hof
    · exact ⟨hnd, hof⟩
  | disconnect c0 =>
    exact close_client_inv c0 st hnd hof

theorem runEvents_inv (users : List (String × String)) :
    ∀ (es : List Event) (st : ServerState),
    st.inputs.Nodup →
    (∀ c, (c ∈ st.inputs ↔ st.buffers c ≠ none) ∧
          (c ∈ st.inputs ↔ st.client_state c ≠ none)) →
    wfEvents users st es = true →
    (runEvents users st es).1.inputs.Nodup ∧
    ∀ c, (c ∈ (runEvents users st es).1.inputs ↔ (runEvents users st es).1.buffers c ≠ none) ∧
         (c ∈ (runEvents users st es).1.inputs ↔
           (runEvents users st es).1.client_state c ≠ none) := by
  intro es
  induction es with
  | nil =>
    intro st hnd hof _
    exact ⟨hnd, hof⟩
  | cons e es ih =>
    intro st hnd hof hwf
    cases e with
    | accept c =>
      rw [show wfEvents users st (Event.accept c :: es) =
            (!(st.inputs.contains c) &&
              wfEvents users (serverStep users st (Event.accept c)).1 es) from rfl,
          Bool.and_eq_true] at hwf
      have h1 : c ∉ st.inputs := by
        have := hwf.1
        simp only [Bool.not_eq_true'] at this
        simpa using this
      have hstep := serverStep_inv users st (Event.accept c) hnd hof h1
      simp only [runEvents]
      exact ih (serverStep users st (Event.accept c)).1 hstep.1 hstep.2 hwf.2
    | data c chunk =>
      rw [show wfEvents users st (Event.data c chunk :: es) =
            (true && wfEvents users (serverStep users st (Event.data c chunk)).1 es) from rfl,
          Bool.and_eq_true] at hwf
      have hstep := serverStep_inv users st (Event.data c chunk) hnd hof trivial
      simp only [runEvents]
      exact ih (serverStep users st (Event.data c chunk)).1 hstep.1 hstep.2 hwf.2
    | disconnect c =>
      rw [show wfEvents users st (Event.disconnect c :: es) =
            (true && wfEvents users (serverStep users st (Event.disconnect c)).1 es) from rfl,
          Bool.and_eq_true] at hwf
      have hstep := serverStep_inv users st (Event.disconnect c) hnd hof trivial
      simp only [runEvents]
      exact ih (serverStep users st (Event.disconnect c)).1 hstep.1 hstep.2 hwf.2

/-- Claim C10: after any well-formed sequence of event-loop steps from the
initial server state, the monitored client sockets, the keys of the buffer
map and the keys of the session-state map agree: a socket is registered in
`inputs` exactly when it has a buffer and exactly when it has a session
state (accept installs all three, every close path removes all three). -/
theorem registry_maps_agree (users : List (String × String)) (es : List Event) (c : Nat)
    (h : wfEvents users initServerState es = true) :
    (c ∈ (runEvents users initServerState es).1.inputs ↔
      (runEvents users initServerState es).1.buffers c ≠ none) ∧
    (c ∈ (runEvents users initServerState es).1.inputs ↔
      (runEvents users initServerState es).1.client_state c ≠ none) :=
  (runEvents_inv users es initServerState List.nodup_nil
    (fun c => by simp [initServerState]) h).2 c

/-- Witness for C10: a concrete trace — accept socket 0, receive a username
line, then the peer disconnects — checked for socket 0. -/
theorem registry_maps_agree_witness :
    (0 ∈ (runEvents [] initServerState
        [Event.accept 0, Event.data 0 ("User: a\n".data), Event.disconnect 0]).1.inputs ↔
      (runEvents [] initServerState
        [Event.accept 0, Event.data 0 ("User: a\n".data), Event.disconnect 0]).1.buffers 0 ≠ none) ∧
    (0 ∈ (runEvents [] initServerState
        [Event.accept 0, Event.data 0 ("User: a\n".data), Event.disconnect 0]).1.inputs ↔
      (runEvents [] initServerState
        [Event.accept 0, Event.data 0 ("User: a\n".data), Event.disconnect 0]).1.client_state 0 ≠ none) :=
  registry_maps_agree []
    [Event.accept 0, Event.data 0 ("User: a\n".data), Event.disconnect 0] 0 (by decide)

end Ex1

namespace Ex1

theorem outputsTo_append (c : Nat) (a b : List (Nat × String)) :
    outputsTo c (a ++ b) = outputsTo c a ++ outputsTo c b := by
  simp [outputsTo, List.filter_append]

theorem serverStep_other (users : List (String × String)) (st : ServerState)
    (e : Event) (c : Nat) (h : ¬(e.client = c)) :
    (serverStep users st e).1.buffers c = st.buffers c ∧
    (serverStep users st e).1.client_state c = st.client_state c ∧
    outputsTo c (serverStep users st e).2 = [] := by
  have hbeq : ∀ c0 : Nat, c0 = e.client → (c0 == c) = false := by
    intro c0 hc0
    subst hc0
    simpa using h
  cases e with
  | accept c0 =>
    have hc : ¬(c = c0) := fun hq => h (hq ▸ rfl)
    refine ⟨by simp [serverStep, if_neg hc], by simp [serverStep, if_neg hc], ?_⟩
    simp [serverStep, outputsTo, hbeq c0 rfl]
  | data c0 chunk =>
    have hc : ¬(c = c0) := fun hq => h (hq ▸ rfl)
    simp only [serverStep]
    split
    · rename_i buf cst hbv hcv
      split
      · rename_i cst' rest out hp
        refine ⟨by simp [if_neg hc], by simp [if_neg hc], ?_⟩
        simp [outputsTo, hbeq c0 rfl]
      · rename_i out hp
        refine ⟨by simp [close_client, if_neg hc], by simp [close_client, if_neg hc], ?_⟩
        simp [outputsTo, hbeq c0 rfl]
    · exact ⟨rfl, rfl, rfl⟩
  | disconnect c0 =>
    have hc : ¬(c = c0) := fun hq => h (hq ▸ rfl)
    exact ⟨by simp [serverStep, close_client, if_neg hc],
           by simp [serverStep, close_client, if_neg hc], rfl⟩

theorem serverStep_same (users : List (String × String)) (s1 s2 : ServerState)
    (e : Event) (c : Nat) (h : e.client = c)
    (hb : s1.buffers c = s2.buffers c) (hcs : s1.client_state c = s2.client_state c) :
    (serverStep users s1 e).1.buffers c = (serverStep users s2 e).1.buffers c ∧
    (serverStep users s1 e).1.client_state c = (serverStep users s2 e).1.client_state c ∧
    (serverStep users s1 e).2 = (serverStep users s2 e).2 := by
  cases e with
  | accept c0 =>
    have hc : c0 = c := h
    subst hc
    exact ⟨by simp [serverStep], by simp [serverStep], rfl⟩
  | data c0 chunk =>
    have hc : c0 = c := h
    subst hc
    simp only [serverStep]
    rw [hb, hcs]
    cases hbv : s2.buffers c0 with
    | none =>
      exact ⟨hb, hcs, rfl⟩
    | some buf =>
      cases hcv : s2.client_state c0 with
      | none =>
        exact ⟨hb, hcs, rfl⟩
      | some cst =>
        dsimp only []
        cases hp : processLines users cst (buf ++ chunk) with
        | mk op out =>
          cases op with
          | some pr =>
            cases pr with
            | mk cst' rest =>
              exact ⟨by simp, by simp, rfl⟩
          | none =>
            exact ⟨by simp [close_client], by simp [close_client], rfl⟩
  | disconnect c0 =>
    have hc : c0 = c := h
    subst hc
    exact ⟨by simp [serverStep, close_client, hb],
           by simp [serverStep, close_client, hcs], rfl⟩

theorem runEvents_proj (users : List (String × String)) (c : Nat) :
    ∀ (es : List Event) (s1 s2 : ServerState),
    s1.buffers c = s2.buffers c → s1.client_state c = s2.client_state c →
    ((runEvents users s1 es).1.buffers c =
       (runEvents users s2 (eventsFor c es)).1.buffers c ∧
     (runEvents users s1 es).1.client_state c =
       (runEvents users s2 (eventsFor c es)).1.client_state c ∧
     outputsTo c (runEvents users s1 es).2 =
       outputsTo c (runEvents users s2 (eventsFor c es)).2) := by
  intro es
  induction es with
  | nil =>
    intro s1 s2 hb hcs
    exact ⟨hb, hcs, rfl⟩
  | cons e es ih =>
    intro s1 s2 hb hcs
    by_cases he : e.client = c
    · have hfe : eventsFor c (e :: es) = e :: eventsFor c es := by
        simp [eventsFor, List.filter_cons, he]
      rw [hfe]
      simp only [runEvents]
      obtain ⟨b1, b2, b3⟩ := serverStep_same users s1 s2 e c he hb hcs
      obtain ⟨i1, i2, i3⟩ := ih (serverStep users s1 e).1 (serverStep users s2 e).1 b1 b2
      refine ⟨i1, i2, ?_⟩
      rw [outputsTo_append, outputsTo_append, b3, i3]
    · have hfe : eventsFor c (e :: es) = eventsFor c es := by
        simp only [eventsFor, List.filter_cons]
        rw [if_neg (by simpa using he)]
      rw [hfe]
      simp only [runEvents]
      obtain ⟨o1, o2, o3⟩ := serverStep_other users s1 e c he
      obtain ⟨i1, i2, i3⟩ := ih (serverStep users s1 e).1 s2 (o1.trans hb) (o2.trans hcs)
      refine ⟨i1, i2, ?_⟩
      rw [outputsTo_append, o3, i3]
      rfl

/-- Claim C9: per-client isolation of the multiplexer.  For any sequence of
readiness events and any client socket, the buffer, the session state and the
ordered responses that client ends up with are exactly those produced by
running only that client's own events: interleaving other clients' accepts,
reads and disconnects in any way neither reads nor writes this client's
buffer or session state and adds no output for it, so simultaneous clients
never observe each other's session state. -/
theorem client_isolation (users : List (String × String)) (es : List Event) (c : Nat) :
    (runEvents users initServerState es).1.buffers c =
      (runEvents users initServerState (eventsFor c es)).1.buffers c ∧
    (runEvents users initServerState es).1.client_state c =
      (runEvents users initServerState (eventsFor c es)).1.client_state c ∧
    outputsTo c (runEvents users initServerState es).2 =
      outputsTo c (runEvents users initServerState (eventsFor c es)).2 :=
  runEvents_proj users c es initServerState initServerState rfl rfl

end Ex1

namespace Ex1

theorem emod_shift_cancel (p shift : Int) (hp1 : 97 ≤ p) (hp2 : p ≤ 122) :
    (97 + (p - 97 + shift) % 26 - 97 + (-shift) % 26) % 26 = p - 97 := by
  omega

/-- Claim C7: for any string of letters and spaces and any integer shift,
encrypting with `shift` succeeds, and encrypting the result again with
`(-shift) % 26` succeeds and returns the lowercased original (round trip up
to case normalization); neither application signals invalid input. -/
theorem caesar_roundtrip (s : List Char) (shift : Int)
    (h : ∀ c ∈ s, pyIsAlpha c = true ∨ c = ' ') :
    ∃ t, caesar_cipher s shift = some t ∧
      caesar_cipher t ((-shift) % 26) = some (s.map pyLowerChar) := by
  induction s with
  | nil => exact ⟨[], rfl, rfl⟩
  | cons ch rest ih =>
    obtain ⟨t', ht1, ht2⟩ := ih (fun c hc => h c (List.mem_cons_of_mem _ hc))
    rcases h ch (List.mem_cons_self _ _) with hal | hsp
    · have hchsp : ¬(ch = ' ') := by
        intro he
        rw [he] at hal
        exact absurd hal (by decide)
      have hlow : 97 ≤ (pyLowerChar ch).toNat ∧ (pyLowerChar ch).toNat ≤ 122 := by
        have hal' := hal
        simp only [pyIsAlpha, Bool.or_eq_true, Bool.and_eq_true, decide_eq_true_eq] at hal'
        by_cases hup : (65 ≤ ch.toNat && ch.toNat ≤ 90) = true
        · have hup' := hup
          simp only [Bool.and_eq_true, decide_eq_true_eq] at hup'
          rw [pyLowerChar, if_pos hup, char_toNat_ofNat (by omega)]
          omega
        · have hup' := hup
          simp only [Bool.and_eq_true, decide_eq_true_eq, not_and_or, not_le] at hup'
          rw [pyLowerChar, if_neg hup]
          omega
      set p : Int := ((pyLowerChar ch).toNat : Int) with hpdef
      have hp1 : 97 ≤ p := by simp [hpdef]; omega
      have hp2 : p ≤ 122 := by simp [hpdef]; omega
      set off : Int := (p - 97 + shift) % 26 with hoffdef
      have hoff1 : 0 ≤ off := Int.emod_nonneg _ (by norm_num)
      have hoff2 : off < 26 := Int.emod_lt_of_pos _ (by norm_num)
      set c1 : Char := Char.ofNat (97 + off.toNat) with hc1def
      have hc1nat : c1.toNat = 97 + off.toNat := by
        rw [hc1def]
        exact char_toNat_ofNat (by omega)
      have hfirst : caesar_cipher (ch :: rest) shift = some (c1 :: t') := by
        rw [show caesar_cipher (ch :: rest) shift =
              (if ch = ' ' then (caesar_cipher rest shift).map (fun r => ' ' :: r)
               else if pyIsAlpha ch then
                 (caesar_cipher rest shift).map (fun r =>
                   Char.ofNat (97 + ((((pyLowerChar ch).toNat : Int) - 97 + shift) % 26).toNat) :: r)
               else none) from rfl,
            if_neg hchsp, if_pos hal, ht1]
        rfl
      clear_value p off c1
      refine ⟨c1 :: t', hfirst, ?_⟩
      have hc1sp : ¬(c1 = ' ') := by
        intro he
        have : (' ').toNat = 32 := by decide
        rw [he, this] at hc1nat
        omega
      have hc1al : pyIsAlpha c1 = true := by
        simp only [pyIsAlpha, Bool.or_eq_true, Bool.and_eq_true, decide_eq_true_eq, hc1nat]
        left
        omega
      have hc1low : pyLowerChar c1 = c1 := by
        rw [pyLowerChar, if_neg ?hc]
        case hc =>
          simp only [Bool.and_eq_true, decide_eq_true_eq, not_and_or, not_le, hc1nat]
          right
          omega
      have harith : (((pyLowerChar c1).toNat : Int) - 97 + (-shift) % 26) % 26 = p - 97 := by
        rw [hc1low, hc1nat]
        have hcast : ((97 + off.toNat : Nat) : Int) = 97 + off := by
          rw [Nat.cast_add, Int.toNat_of_nonneg hoff1]
          norm_num
        rw [hcast, hoffdef]
        exact emod_shift_cancel p shift hp1 hp2
      have hlast : Char.ofNat (97 + ((((pyLowerChar c1).toNat : Int) - 97 + (-shift) % 26) % 26).toNat)
          = pyLowerChar ch := by
        rw [harith]
        have : (97 : Nat) + (p - 97).toNat = (pyLowerChar ch).toNat := by
          rw [hpdef]
          omega
        rw [this, Char.ofNat_toNat]
      rw [show caesar_cipher (c1 :: t') ((-shift) % 26) =
            (if c1 = ' ' then (caesar_cipher t' ((-shift) % 26)).map (fun r => ' ' :: r)
             else if pyIsAlpha c1 then
               (caesar_cipher t' ((-shift) % 26)).map (fun r =>
                 Char.ofNat (97 + ((((pyLowerChar c1).toNat : Int) - 97 + (-shift) % 26) % 26).toNat) :: r)
             else none) from rfl,
          if_neg hc1sp, if_pos hc1al, ht2, hlast]
      rfl
    · subst hsp
      refine ⟨' ' :: t', ?_, ?_⟩
      · rw [show caesar_cipher (' ' :: rest) shift =
              (caesar_cipher rest shift).map (fun r => ' ' :: r) from rfl, ht1]
        rfl
      · rw [show caesar_cipher (' ' :: t') ((-shift) % 26) =
              (caesar_cipher t' ((-shift) % 26)).map (fun r => ' ' :: r) from rfl, ht2]
        have : pyLowerChar ' ' = ' ' := by decide
        simp [this]

/-- Witness for C7: the spec's example plaintext `abc xyz` with shift 3. -/
theorem caesar_roundtrip_witness :
    ∃ t, caesar_cipher ("abc xyz".data) 3 = some t ∧
      caesar_cipher t ((-3) % 26) = some (("abc xyz".data).map pyLowerChar) :=
  caesar_roundtrip ("abc xyz".data) 3 (by decide)

end Ex1
